import Mathlib

/-!
Shallow embedding of the emotion-analysis pipeline of this repository
(`emotion_agent.py` and the batch layer of `app.py`).

Python dicts are embedded as insertion-ordered association lists
`List (String × ℚ)`; classifier scores and accumulated totals are embedded
as exact rationals `ℚ` (the Python source computes with floats; the claims
under study concern the arithmetic structure of the algorithm, which we
model over exact arithmetic).  The external models (whisper transcription,
the transformer classifier) are out of scope: each transcription segment is
embedded together with the raw label/score list the external classifier
returned for its text.
-/

namespace EmotionAgent

/-- A Python dict from strings to floats, as an insertion-ordered
association list. -/
abbrev Dict := List (String × ℚ)

/-- The keys of a dict, in insertion order (`list(d.keys())`). -/
def keysOf : Dict → List String
  | [] => []
  | kv :: rest => kv.1 :: keysOf rest

/-- `d[k]` with a default of `0.0` for a missing key: this is exactly the
read that `defaultdict(float)` performs, and agrees with plain-dict access
on every key that is present. -/
def glookup : Dict → String → ℚ
  | [], _ => 0
  | (k', v) :: rest, k => if k' = k then v else glookup rest k

/-- `d[k] += v`: on a present key the stored value is increased in place
(position preserved); on a missing key `defaultdict(float)` first creates
the entry with value `0.0` at the end of the dict, then adds.  In
`classify_emotion` the updated key is always present (the dict is built by
`dict.fromkeys(emotion_labels, 0.0)`), so this one definition is also
faithful there. -/
def dinc : Dict → String → ℚ → Dict
  | [], k, v => [(k, 0 + v)]
  | (k', v') :: rest, k, v =>
      if k' = k then (k', v' + v) :: rest else (k', v') :: dinc rest k v

/-- `sum(d.values())`. -/
def sumValues (d : Dict) : ℚ := (d.map (·.2)).sum

/-- `emotion_labels` (emotion_agent.py line 17). -/
def emotion_labels : List String :=
  ["happy", "angry", "frustrated", "confused", "sad", "surprised",
   "neutral", "hopeful", "bored"]

/-- `dict.fromkeys(emotion_labels, 0.0)` (emotion_agent.py line 34). -/
def zeroVec : Dict := emotion_labels.map (fun k => (k, (0 : ℚ)))

/-- One raw (label, score) pair of the external classifier's output. -/
abbrev RawItem := String × ℚ

/-- The body of the `for item in result` loop of `classify_emotion`
(emotion_agent.py lines 36-57): lower-case the label and add the score into
the matching canonical bucket, or drop the pair if no branch matches. -/
def classify_step (mapped : Dict) (item : RawItem) : Dict :=
  let label := item.1.toLower
  let score := item.2
  if label ∈ ["joy"] then dinc mapped "happy" score
  else if label ∈ ["anger", "annoyance"] then dinc mapped "angry" score
  else if label ∈ ["disgust", "disappointment"] then dinc mapped "frustrated" score
  else if label ∈ ["confusion", "realization"] then dinc mapped "confused" score
  else if label ∈ ["sadness"] then dinc mapped "sad" score
  else if label ∈ ["surprise"] then dinc mapped "surprised" score
  else if label ∈ ["neutral"] then dinc mapped "neutral" score
  else if label ∈ ["caring", "excitement"] then dinc mapped "hopeful" score
  else if label ∈ ["boredom"] then dinc mapped "bored" score
  else mapped

/-- `classify_emotion` (emotion_agent.py lines 32-59), with the external
model call abstracted away: the argument is the raw (label, score) list the
classifier returned for the text. -/
def classify_emotion (result : List RawItem) : Dict :=
  result.foldl classify_step zeroVec

/-- Specification-side restatement of the grouping table: the canonical
bucket an external label is routed to, if any. -/
def bucketOf (label : String) : Option String :=
  let l := label.toLower
  if l ∈ ["joy"] then some "happy"
  else if l ∈ ["anger", "annoyance"] then some "angry"
  else if l ∈ ["disgust", "disappointment"] then some "frustrated"
  else if l ∈ ["confusion", "realization"] then some "confused"
  else if l ∈ ["sadness"] then some "sad"
  else if l ∈ ["surprise"] then some "surprised"
  else if l ∈ ["neutral"] then some "neutral"
  else if l ∈ ["caring", "excitement"] then some "hopeful"
  else if l ∈ ["boredom"] then some "bored"
  else none

/-- The total score that a raw classification contributes to bucket `b`. -/
def bucketSum (result : List RawItem) (b : String) : ℚ :=
  ((result.filter (fun item => bucketOf item.1 = some b)).map (·.2)).sum

set_option maxHeartbeats 2000000 in
theorem classify_step_eq (mapped : Dict) (item : RawItem) :
    classify_step mapped item =
      match bucketOf item.1 with
      | some b => dinc mapped b item.2
      | none => mapped := by
  simp only [classify_step, bucketOf]
  split_ifs <;> rfl

theorem keysOf_dinc_mem (d : Dict) (k : String) (v : ℚ) (h : k ∈ keysOf d) :
    keysOf (dinc d k v) = keysOf d := by
  induction d with
  | nil => simp [keysOf] at h
  | cons hd tl ih =>
      by_cases hk : hd.1 = k
      · simp [dinc, hk, keysOf]
      · rcases List.mem_cons.mp (by simpa [keysOf] using h) with h1 | h1
        · exact absurd h1.symm hk
        · simp [dinc, hk, keysOf, ih h1]

theorem keysOf_dinc_not_mem (d : Dict) (k : String) (v : ℚ) (h : k ∉ keysOf d) :
    keysOf (dinc d k v) = keysOf d ++ [k] := by
  induction d with
  | nil => simp [dinc, keysOf]
  | cons hd tl ih =>
      simp only [keysOf, List.mem_cons] at h
      push_neg at h
      simp [dinc, Ne.symm h.1, keysOf, ih h.2]

theorem glookup_dinc_self (d : Dict) (k : String) (v : ℚ) :
    glookup (dinc d k v) k = glookup d k + v := by
  induction d with
  | nil => simp [dinc, glookup]
  | cons hd tl ih =>
      by_cases hk : hd.1 = k
      · simp [dinc, hk, glookup]
      · simp [dinc, hk, glookup, ih]

theorem glookup_dinc_other (d : Dict) (k k' : String) (v : ℚ) (h : k' ≠ k) :
    glookup (dinc d k v) k' = glookup d k' := by
  induction d with
  | nil => simp [dinc, glookup, Ne.symm h]
  | cons hd tl ih =>
      by_cases hk : hd.1 = k
      · have hne : hd.1 ≠ k' := by
          rw [hk]
          exact Ne.symm h
        simp [dinc, hk, glookup, hne, Ne.symm h]
      · by_cases hk' : hd.1 = k'
        · simp [dinc, hk, glookup, hk', h]
        · simp [dinc, hk, glookup, hk', ih]

theorem glookup_eq_zero_of_not_mem (d : Dict) (k : String) (h : k ∉ keysOf d) :
    glookup d k = 0 := by
  induction d with
  | nil => simp [glookup]
  | cons hd tl ih =>
      simp only [keysOf, List.mem_cons] at h
      push_neg at h
      simp [glookup, Ne.symm h.1, ih h.2]

/-- Two dicts with the same (duplicate-free) key sequence and the same
value at every key are equal. -/
theorem dict_ext (d e : Dict) (hk : keysOf d = keysOf e)
    (hnd : (keysOf d).Nodup) (hv : ∀ k, glookup d k = glookup e k) : d = e := by
  induction d generalizing e with
  | nil =>
      cases e with
      | nil => rfl
      | cons he te => simp [keysOf] at hk
  | cons hd td ih =>
      cases e with
      | nil => simp [keysOf] at hk
      | cons he te =>
          simp only [keysOf, List.cons.injEq] at hk
          have hkey : hd.1 = he.1 := hk.1
          have hval : hd.2 = he.2 := by
            have := hv hd.1
            simpa [glookup, hkey] using this
          have hnd0 := List.nodup_cons.mp (by simpa [keysOf] using hnd)
          have hhd : hd.1 ∉ keysOf td := hnd0.1
          have htl : td = te := by
            refine ih te hk.2 hnd0.2 ?_
            intro k
            by_cases hkk : k = hd.1
            · have hknot : k ∉ keysOf td := by
                rw [hkk]
                exact hhd
              have hknot' : k ∉ keysOf te := by
                rw [hkk, ← hk.2]
                exact hhd
              rw [glookup_eq_zero_of_not_mem td k hknot,
                glookup_eq_zero_of_not_mem te k hknot']
            · have hne : hd.1 ≠ k := fun h => hkk h.symm
              have hne' : he.1 ≠ k := hkey ▸ hne
              have := hv k
              simpa [glookup, hne, hne'] using this
          cases hd
          cases he
          simp_all

theorem bucketOf_mem (l b : String) (h : bucketOf l = some b) :
    b ∈ emotion_labels := by
  unfold bucketOf at h
  dsimp only at h
  split_ifs at h <;> simp_all [emotion_labels]

theorem fst_mem_keysOf (d : Dict) (p : String × ℚ) (hp : p ∈ d) :
    p.1 ∈ keysOf d := by
  induction d with
  | nil => simp at hp
  | cons hd tl ih =>
      rcases List.mem_cons.mp hp with h | h
      · simp [h, keysOf]
      · simp [keysOf, ih h]

theorem glookup_of_mem_nodup (d : Dict) (p : String × ℚ)
    (hnd : (keysOf d).Nodup) (hp : p ∈ d) : glookup d p.1 = p.2 := by
  induction d with
  | nil => simp at hp
  | cons hd tl ih =>
      have hnd0 := List.nodup_cons.mp (by simpa [keysOf] using hnd)
      rcases List.mem_cons.mp hp with h | h
      · subst h
        simp [glookup]
      · have hne : hd.1 ≠ p.1 := by
          intro hEq
          exact hnd0.1 (hEq ▸ fst_mem_keysOf tl p h)
        simp [glookup, hne, ih hnd0.2 h]

theorem glookup_foldl_classify (raw : List RawItem) (d : Dict) (b : String) :
    glookup (raw.foldl classify_step d) b = glookup d b + bucketSum raw b := by
  induction raw generalizing d with
  | nil => simp [bucketSum]
  | cons it rest ih =>
      rw [List.foldl_cons, ih, classify_step_eq]
      cases hb : bucketOf it.1 with
      | none => simp [bucketSum, List.filter_cons, hb]
      | some b' =>
          by_cases hbb : b' = b
          · subst hbb
            rw [glookup_dinc_self]
            simp [bucketSum, List.filter_cons, hb]
            ring
          · rw [glookup_dinc_other d b' b it.2 (Ne.symm hbb)]
            simp [bucketSum, List.filter_cons, hb, hbb]

theorem keysOf_foldl_classify (raw : List RawItem) (d : Dict)
    (h : ∀ b ∈ emotion_labels, b ∈ keysOf d) :
    keysOf (raw.foldl classify_step d) = keysOf d := by
  induction raw generalizing d with
  | nil => rfl
  | cons it rest ih =>
      rw [List.foldl_cons, classify_step_eq]
      cases hb : bucketOf it.1 with
      | none => exact ih d h
      | some b =>
          have hbmem : b ∈ keysOf d := h b (bucketOf_mem it.1 b hb)
          have hkeys := keysOf_dinc_mem d b it.2 hbmem
          rw [ih (dinc d b it.2) (fun b' hb' => hkeys ▸ h b' hb'), hkeys]

theorem keysOf_zeroVec : keysOf zeroVec = emotion_labels := rfl

theorem glookup_zeroVec (b : String) : glookup zeroVec b = 0 := by
  have h : ∀ L : List String, glookup (L.map (fun k => (k, (0 : ℚ)))) b = 0 := by
    intro L
    induction L with
    | nil => simp [glookup]
    | cons hd tl ih =>
        by_cases hb : hd = b <;> simp [glookup, hb, ih]
  exact h emotion_labels

/-- Per-bucket characterization of `classify_emotion`: bucket `b` holds the
sum of the scores of exactly the raw items whose label is routed to `b`. -/
theorem classify_emotion_glookup (raw : List RawItem) (b : String) :
    glookup (classify_emotion raw) b = bucketSum raw b := by
  unfold classify_emotion
  rw [glookup_foldl_classify, glookup_zeroVec, zero_add]

theorem classify_emotion_keys (raw : List RawItem) :
    keysOf (classify_emotion raw) = emotion_labels := by
  unfold classify_emotion
  rw [keysOf_foldl_classify raw zeroVec
    (fun b hb => keysOf_zeroVec ▸ hb), keysOf_zeroVec]

theorem emotion_labels_nodup : emotion_labels.Nodup := by decide

theorem bucketSum_nonneg (raw : List RawItem) (b : String)
    (h : ∀ p ∈ raw, 0 ≤ p.2) : 0 ≤ bucketSum raw b := by
  unfold bucketSum
  refine List.sum_nonneg ?_
  intro x hx
  rcases List.mem_map.mp hx with ⟨p, hp, hpx⟩
  exact hpx ▸ h p (List.mem_of_mem_filter hp)

/-- The inner accumulation loop of `analyze_call` (emotion_agent.py lines
83-84): `for k, v in emotions.items(): emotion_totals[k] += v`, where
`emotion_totals` is a `defaultdict(float)`. -/
def accumulate (totals : Dict) (emotions : Dict) : Dict :=
  emotions.foldl (fun t kv => dinc t kv.1 kv.2) totals

theorem accumulate_cons (t : Dict) (hd : String × ℚ) (tl : Dict) :
    accumulate t (hd :: tl) = accumulate (dinc t hd.1 hd.2) tl := rfl

/-- The total contribution of the entries of `d` that carry key `k`. -/
def keySum (d : Dict) (k : String) : ℚ :=
  ((d.filter (fun kv => kv.1 = k)).map (·.2)).sum

theorem glookup_accumulate (X t : Dict) (k : String) :
    glookup (accumulate t X) k = glookup t k + keySum X k := by
  induction X generalizing t with
  | nil => simp [accumulate, keySum]
  | cons hd tl ih =>
      rw [accumulate_cons, ih]
      by_cases hk : hd.1 = k
      · rw [hk, glookup_dinc_self]
        simp [keySum, List.filter_cons, hk]
        ring
      · rw [glookup_dinc_other t hd.1 k hd.2 (fun h => hk h.symm)]
        simp [keySum, List.filter_cons, hk]

theorem keysOf_accumulate_of_subset (X t : Dict)
    (h : ∀ k ∈ keysOf X, k ∈ keysOf t) :
    keysOf (accumulate t X) = keysOf t := by
  induction X generalizing t with
  | nil => rfl
  | cons hd tl ih =>
      have hm : hd.1 ∈ keysOf t := h hd.1 (by simp [keysOf])
      have hkeys := keysOf_dinc_mem t hd.1 hd.2 hm
      rw [accumulate_cons,
        ih (dinc t hd.1 hd.2) (fun k hk => hkeys ▸ h k (by simp [keysOf, hk])),
        hkeys]

theorem keysOf_accumulate (X : Dict) (hnd : (keysOf X).Nodup) (t : Dict) :
    keysOf (accumulate t X)
      = keysOf t ++ (keysOf X).filter (fun k => decide (k ∉ keysOf t)) := by
  induction X generalizing t with
  | nil => simp [accumulate, keysOf]
  | cons hd tl ih =>
      have hnd0 := List.nodup_cons.mp (by simpa [keysOf] using hnd)
      rw [accumulate_cons, ih hnd0.2]
      by_cases hm : hd.1 ∈ keysOf t
      · rw [keysOf_dinc_mem t hd.1 hd.2 hm]
        simp [keysOf, List.filter_cons, hm]
      · rw [keysOf_dinc_not_mem t hd.1 hd.2 hm]
        have hfil : (keysOf tl).filter
              (fun k => decide (k ∉ keysOf t ++ [hd.1]))
            = (keysOf tl).filter (fun k => decide (k ∉ keysOf t)) := by
          refine List.filter_congr ?_
          intro k hk
          have hne : k ≠ hd.1 := fun hEq => hnd0.1 (hEq ▸ hk)
          simp [List.mem_append, hne]
        rw [hfil]
        simp [keysOf, List.filter_cons, hm]

theorem keySum_nonneg (X : Dict) (k : String) (h : ∀ p ∈ X, 0 ≤ p.2) :
    0 ≤ keySum X k := by
  unfold keySum
  refine List.sum_nonneg ?_
  intro x hx
  rcases List.mem_map.mp hx with ⟨p, hp, hpx⟩
  exact hpx ▸ h p (List.mem_of_mem_filter hp)

/-- Python 3 `round` to an integer: round half to even (banker's
rounding), on our exact-rational embedding of the float values. -/
def roundHalfEven (q : ℚ) : ℤ :=
  let f := q - ⌊q⌋
  if f < 1 / 2 then ⌊q⌋
  else if 1 / 2 < f then ⌊q⌋ + 1
  else if ⌊q⌋ % 2 = 0 then ⌊q⌋ else ⌊q⌋ + 1

/-- Python 3 `round(x, 2)`. -/
def round2 (q : ℚ) : ℚ := (roundHalfEven (q * 100) : ℚ) / 100

theorem abs_roundHalfEven_sub (q : ℚ) : |(roundHalfEven q : ℚ) - q| ≤ 1 / 2 := by
  have h0 : (⌊q⌋ : ℚ) ≤ q := Int.floor_le q
  have h1 : q < ⌊q⌋ + 1 := Int.lt_floor_add_one q
  unfold roundHalfEven
  dsimp only
  split_ifs with hf hf' he <;>
    · rw [abs_le]
      push_cast
      constructor <;> linarith

theorem abs_round2_sub (q : ℚ) : |round2 q - q| ≤ 1 / 200 := by
  have h := abs_roundHalfEven_sub (q * 100)
  have heq : round2 q - q = ((roundHalfEven (q * 100) : ℚ) - q * 100) / 100 := by
    unfold round2
    ring
  rw [heq, abs_div]
  rw [show |(100 : ℚ)| = 100 by norm_num]
  linarith

/-- One transcription segment: its text together with the raw (label,
score) list the external classifier returns for that text (the
`emotion_model(text)[0]` call of `classify_emotion`). -/
structure Seg where
  text : String
  raw : List RawItem

/-- One entry of `emotion_history` (emotion_agent.py lines 87-91). -/
structure Hist where
  text : String
  translated : String
  emotions : Dict

/-- `translate_text_auto` (emotion_agent.py lines 29-30): the temporary
translation fix is the identity on the text. -/
def translate_text_auto (text : String) (src_lang : String) : String := text

/-- The mutable loop state of `analyze_call` (emotion_agent.py lines
63-66). -/
structure LoopState where
  emotion_totals : Dict
  utterance_count : Nat
  emotion_history : List Hist
  full_transcript : List String

/-- The per-call initialization of `analyze_call` (emotion_agent.py lines
63-66): empty `defaultdict(float)`, zero count, empty lists. -/
def initState : LoopState := ⟨[], 0, [], []⟩

/-- The body of the `for segment in result['segments']` loop of
`analyze_call` (emotion_agent.py lines 75-91). -/
def analyze_step (lang : String) (st : LoopState) (segment : Seg) : LoopState :=
  let text := segment.text
  let translated := translate_text_auto text lang
  let emotions := classify_emotion segment.raw
  { emotion_totals := accumulate st.emotion_totals emotions
    utterance_count := st.utterance_count + 1
    emotion_history := st.emotion_history ++ [⟨text, translated, emotions⟩]
    full_transcript := st.full_transcript ++ [text] }

/-- The normalization of `analyze_call` (emotion_agent.py lines 93-94):
`total = sum(emotion_totals.values())` followed by the comprehension
`{k: round((v / total) * 100, 2) if total > 0 else 0.0 for k, v in
emotion_totals.items()}`. -/
def final_percentages (totals : Dict) : Dict :=
  let total := sumValues totals
  totals.map (fun kv => (kv.1, if 0 < total then round2 (kv.2 / total * 100) else 0))

/-- `analyze_call` (emotion_agent.py lines 61-101), with the external
preprocessing/transcription abstracted away: `lang` is the detected
language and `segments` the transcription segments, each paired with the
raw classifier output for its text.  Returns
`(emotion_history, final_percentages, transcript_string)`. -/
def analyze_call (lang : String) (segments : List Seg) :
    List Hist × Dict × String :=
  let st := segments.foldl (analyze_step lang) initState
  (st.emotion_history, final_percentages st.emotion_totals,
    String.intercalate "\n" st.full_transcript)

theorem foldl_analyze_totals (lang : String) (segs : List Seg) (st : LoopState) :
    (segs.foldl (analyze_step lang) st).emotion_totals
      = segs.foldl (fun t s => accumulate t (classify_emotion s.raw))
          st.emotion_totals := by
  induction segs generalizing st with
  | nil => rfl
  | cons s rest ih =>
      rw [List.foldl_cons, List.foldl_cons, ih]
      rfl

theorem foldl_analyze_transcript (lang : String) (segs : List Seg)
    (st : LoopState) :
    (segs.foldl (analyze_step lang) st).full_transcript
      = st.full_transcript ++ segs.map (·.text) := by
  induction segs generalizing st with
  | nil => simp
  | cons s rest ih =>
      rw [List.foldl_cons, ih]
      simp [analyze_step]

theorem foldl_analyze_history (lang : String) (segs : List Seg)
    (st : LoopState) :
    (segs.foldl (analyze_step lang) st).emotion_history
      = st.emotion_history ++ segs.map (fun s =>
          (⟨s.text, translate_text_auto s.text lang,
            classify_emotion s.raw⟩ : Hist)) := by
  induction segs generalizing st with
  | nil => simp
  | cons s rest ih =>
      rw [List.foldl_cons, ih]
      simp [analyze_step]

theorem keysOf_length (d : Dict) : (keysOf d).length = d.length := by
  induction d with
  | nil => rfl
  | cons hd tl ih => simp [keysOf, ih]

theorem keysOf_map_pair (e : Dict) (g : String × ℚ → ℚ) :
    keysOf (e.map (fun kv => (kv.1, g kv))) = keysOf e := by
  induction e with
  | nil => rfl
  | cons hd tl ih => simp [keysOf, ih]

theorem glookup_map_value (e : Dict) (g : ℚ → ℚ) (k : String)
    (hk : k ∈ keysOf e) :
    glookup (e.map (fun kv => (kv.1, g kv.2))) k = g (glookup e k) := by
  induction e with
  | nil => simp [keysOf] at hk
  | cons hd tl ih =>
      by_cases h : hd.1 = k
      · simp [glookup, h]
      · have hk' : k ∈ keysOf tl := by
          rcases List.mem_cons.mp (by simpa [keysOf] using hk) with h1 | h1
          · exact absurd h1.symm h
          · exact h1
        simp [glookup, h, ih hk']

theorem sumValues_cons (hd : String × ℚ) (tl : Dict) :
    sumValues (hd :: tl) = hd.2 + sumValues tl := by
  simp [sumValues]

theorem sumValues_map_value (e : Dict) (g : ℚ → ℚ) :
    sumValues (e.map (fun kv => (kv.1, g kv.2)))
      = (e.map (fun kv => g kv.2)).sum := by
  induction e with
  | nil => rfl
  | cons hd tl ih =>
      simp only [List.map_cons, sumValues_cons, List.sum_cons]
      rw [ih]

theorem sum_round2_bound (l : List ℚ) :
    |(l.map round2).sum - l.sum| ≤ l.length * (1 / 200) := by
  induction l with
  | nil => simp
  | cons hd tl ih =>
      simp only [List.map_cons, List.sum_cons, List.length_cons]
      have h1 : round2 hd + (tl.map round2).sum - (hd + tl.sum)
          = (round2 hd - hd) + ((tl.map round2).sum - tl.sum) := by ring
      rw [h1]
      calc |(round2 hd - hd) + ((tl.map round2).sum - tl.sum)|
          ≤ |round2 hd - hd| + |(tl.map round2).sum - tl.sum| := abs_add _ _
        _ ≤ 1 / 200 + tl.length * (1 / 200) :=
            add_le_add (abs_round2_sub hd) ih
        _ = (tl.length + 1) * (1 / 200) := by ring
        _ = ((tl.length + 1 : ℕ) : ℚ) * (1 / 200) := by push_cast; ring

theorem sum_map_div_mul (e : Dict) (t : ℚ) :
    (e.map (fun kv => kv.2 / t * 100)).sum = sumValues e / t * 100 := by
  induction e with
  | nil => simp [sumValues]
  | cons hd tl ih =>
      simp only [List.map_cons, List.sum_cons, ih, sumValues_cons]
      ring

theorem final_percentages_pos (d : Dict) (h : 0 < sumValues d) :
    final_percentages d
      = d.map (fun kv => (kv.1, round2 (kv.2 / sumValues d * 100))) := by
  simp [final_percentages, h]

theorem sumValues_final_percentages_bound (d : Dict) (h : 0 < sumValues d) :
    |sumValues (final_percentages d) - 100| ≤ d.length * (1 / 200) := by
  rw [final_percentages_pos d h,
    sumValues_map_value d (fun v => round2 (v / sumValues d * 100))]
  have hmm : (d.map fun kv => round2 (kv.2 / sumValues d * 100))
      = (d.map (fun kv => kv.2 / sumValues d * 100)).map round2 := by
    rw [List.map_map]
    rfl
  rw [hmm]
  have hb := sum_round2_bound (d.map (fun kv => kv.2 / sumValues d * 100))
  rw [sum_map_div_mul, div_self (ne_of_gt h), one_mul] at hb
  simpa [List.length_map] using hb

theorem keysOf_accumulate_nil (X : Dict) (hnd : (keysOf X).Nodup) :
    keysOf (accumulate [] X) = keysOf X := by
  rw [keysOf_accumulate X hnd []]
  simp [keysOf]

theorem final_percentages_keys (d : Dict) :
    keysOf (final_percentages d) = keysOf d := by
  unfold final_percentages
  dsimp only
  exact keysOf_map_pair d _

theorem foldl_acc_keys (segs : List Seg) (t : Dict)
    (h : keysOf t = emotion_labels) :
    keysOf (segs.foldl (fun t s => accumulate t (classify_emotion s.raw)) t)
      = emotion_labels := by
  induction segs generalizing t with
  | nil => exact h
  | cons s rest ih =>
      rw [List.foldl_cons]
      refine ih _ ?_
      rw [keysOf_accumulate_of_subset _ t ?_]
      · exact h
      · intro k hk
        rw [classify_emotion_keys] at hk
        rw [h]
        exact hk

theorem toLower_anger : "anger".toLower = "anger" := by
  rw [String.toLower, String.map_eq]
  decide

theorem toLower_annoyance : "annoyance".toLower = "annoyance" := by
  rw [String.toLower, String.map_eq]
  decide

theorem toLower_neutral_ish : "neutral-ish".toLower = "neutral-ish" := by
  rw [String.toLower, String.map_eq]
  decide

theorem toLower_joy : "joy".toLower = "joy" := by
  rw [String.toLower, String.map_eq]
  decide

/-- C3: for every raw classification, each (label, score) pair whose
lower-cased label matches the grouping table has its score ADDED into the
unique canonical bucket of that label — bucket `b` of `classify_emotion`
always equals the sum of the qualifying scores, so multiple external labels
accumulate (e.g. anger: 0.3 and annoyance: 0.2 produce angry = 0.5), and a
pair with an unrecognized label (e.g. neutral-ish: 0.9) contributes 0 to
every bucket, without an error. -/
theorem claim_C3 :
    (∀ (raw : List RawItem) (b : String),
        glookup (classify_emotion raw) b = bucketSum raw b)
      ∧ glookup (classify_emotion
            [("anger", 3/10), ("annoyance", 2/10)]) "angry" = 5/10
      ∧ classify_emotion [("neutral-ish", 9/10)] = zeroVec := by
  refine ⟨classify_emotion_glookup, ?_, ?_⟩
  · norm_num [classify_emotion, classify_step, zeroVec, emotion_labels, dinc,
      glookup, toLower_anger, toLower_annoyance]
    all_goals decide
  · norm_num [classify_emotion, classify_step, toLower_neutral_ish]
    all_goals decide

/-- C4: for every raw classification whose scores are non-negative,
`classify_emotion` returns a dict with exactly the 9 canonical keys, in
order, and every stored value is ≥ 0. -/
theorem claim_C4 (raw : List RawItem) (h : ∀ p ∈ raw, 0 ≤ p.2) :
    keysOf (classify_emotion raw) = emotion_labels
      ∧ ∀ p ∈ classify_emotion raw, 0 ≤ p.2 := by
  refine ⟨classify_emotion_keys raw, ?_⟩
  intro p hp
  have hnd : (keysOf (classify_emotion raw)).Nodup :=
    classify_emotion_keys raw ▸ emotion_labels_nodup
  have hval := glookup_of_mem_nodup _ p hnd hp
  rw [← hval, classify_emotion_glookup]
  exact bucketSum_nonneg raw p.1 h

theorem claim_C4_witness :
    keysOf (classify_emotion [("joy", 1/2)]) = emotion_labels
      ∧ ∀ p ∈ classify_emotion [("joy", 1/2)], 0 ≤ p.2 :=
  claim_C4 [("joy", 1/2)] (by norm_num)

/-- C6: the label-to-bucket mapping is order-independent — permuting the
raw (label, score) list leaves the `classify_emotion` output identical. -/
theorem claim_C6 (raw raw' : List RawItem) (h : raw.Perm raw') :
    classify_emotion raw = classify_emotion raw' := by
  refine dict_ext _ _ ?_ ?_ ?_
  · rw [classify_emotion_keys, classify_emotion_keys]
  · rw [classify_emotion_keys]
    exact emotion_labels_nodup
  · intro k
    rw [classify_emotion_glookup, classify_emotion_glookup]
    unfold bucketSum
    exact List.Perm.sum_eq
      ((h.filter (fun item => decide (bucketOf item.1 = some k))).map (·.2))

theorem claim_C6_witness :
    classify_emotion [("anger", (1 : ℚ)), ("joy", (2 : ℚ))]
      = classify_emotion [("joy", (2 : ℚ)), ("anger", (1 : ℚ))] :=
  claim_C6 _ _ (List.Perm.swap _ _ _)

/-- C5: aggregation is accumulation-order-independent for the totals — for
any two segments A and B, the `emotion_totals` accumulated by the
`analyze_call` loop over `[A, B]` equal the totals accumulated over
`[B, A]` (exact arithmetic), even though the two histories differ in
order. -/
theorem claim_C5 (lang : String) (A B : Seg) :
    (([A, B]).foldl (analyze_step lang) initState).emotion_totals
      = (([B, A]).foldl (analyze_step lang) initState).emotion_totals := by
  rw [foldl_analyze_totals, foldl_analyze_totals]
  simp only [List.foldl_cons, List.foldl_nil]
  have hinit : initState.emotion_totals = ([] : Dict) := rfl
  rw [hinit]
  have hA := classify_emotion_keys A.raw
  have hB := classify_emotion_keys B.raw
  have hndA : (keysOf (classify_emotion A.raw)).Nodup := hA ▸ emotion_labels_nodup
  have hndB : (keysOf (classify_emotion B.raw)).Nodup := hB ▸ emotion_labels_nodup
  have h1 : keysOf (accumulate [] (classify_emotion A.raw)) = emotion_labels := by
    rw [keysOf_accumulate_nil _ hndA, hA]
  have h2 : keysOf (accumulate [] (classify_emotion B.raw)) = emotion_labels := by
    rw [keysOf_accumulate_nil _ hndB, hB]
  have h3 : keysOf (accumulate (accumulate [] (classify_emotion A.raw))
      (classify_emotion B.raw)) = emotion_labels :=
    (keysOf_accumulate_of_subset _ _
      (fun k hk => h1.symm ▸ hB ▸ hk)).trans h1
  have h4 : keysOf (accumulate (accumulate [] (classify_emotion B.raw))
      (classify_emotion A.raw)) = emotion_labels :=
    (keysOf_accumulate_of_subset _ _
      (fun k hk => h2.symm ▸ hA ▸ hk)).trans h2
  refine dict_ext _ _ (h3.trans h4.symm) (h3 ▸ emotion_labels_nodup) ?_
  intro k
  rw [glookup_accumulate, glookup_accumulate, glookup_accumulate,
    glookup_accumulate]
  ring

/-- C7: the accumulated totals are monotonically non-decreasing per key —
when the emotion vector of an appended segment has only non-negative
values, every key's total after processing `segs ++ [seg]` is at least its
total after processing `segs`. -/
theorem claim_C7 (lang : String) (segs : List Seg) (seg : Seg) (k : String)
    (h : ∀ p ∈ classify_emotion seg.raw, 0 ≤ p.2) :
    glookup ((segs.foldl (analyze_step lang) initState).emotion_totals) k
      ≤ glookup (((segs ++ [seg]).foldl (analyze_step lang)
          initState).emotion_totals) k := by
  rw [List.foldl_append]
  simp only [List.foldl_cons, List.foldl_nil]
  have hstep : (analyze_step lang (segs.foldl (analyze_step lang) initState)
        seg).emotion_totals
      = accumulate ((segs.foldl (analyze_step lang) initState).emotion_totals)
          (classify_emotion seg.raw) := rfl
  rw [hstep, glookup_accumulate]
  have hnn := keySum_nonneg (classify_emotion seg.raw) k h
  linarith

theorem claim_C7_witness :
    glookup ((([] : List Seg).foldl (analyze_step "en") initState).emotion_totals)
        "happy"
      ≤ glookup (((([] : List Seg) ++ [(⟨"hi", [("joy", 1)]⟩ : Seg)]).foldl
          (analyze_step "en") initState).emotion_totals) "happy" :=
  claim_C7 "en" [] ⟨"hi", [("joy", 1)]⟩ "happy" (by
    norm_num [classify_emotion, classify_step, zeroVec, emotion_labels, dinc,
      toLower_joy])

/-- C8: the transcript string returned by `analyze_call` is the utterance
texts joined in input order with newline separators. -/
theorem claim_C8 (lang : String) (segs : List Seg) :
    (analyze_call lang segs).2.2
      = String.intercalate "\n" (segs.map (·.text)) := by
  unfold analyze_call
  dsimp only
  rw [foldl_analyze_transcript]
  rfl

/-- C10: whenever at least one segment is processed, both the accumulated
`emotion_totals` and the returned `final_percentages` carry exactly the 9
canonical keys — the 9-key shape of the output depends on the segment list
being non-empty. -/
theorem claim_C10 (lang : String) (segs : List Seg) (h : segs ≠ []) :
    keysOf ((segs.foldl (analyze_step lang) initState).emotion_totals)
        = emotion_labels
      ∧ keysOf ((analyze_call lang segs).2.1) = emotion_labels := by
  have htot : keysOf ((segs.foldl (analyze_step lang)
      initState).emotion_totals) = emotion_labels := by
    rw [foldl_analyze_totals]
    cases segs with
    | nil => exact absurd rfl h
    | cons s rest =>
        rw [List.foldl_cons]
        refine foldl_acc_keys rest _ ?_
        have hnd : (keysOf (classify_emotion s.raw)).Nodup :=
          classify_emotion_keys s.raw ▸ emotion_labels_nodup
        show keysOf (accumulate [] (classify_emotion s.raw)) = emotion_labels
        rw [keysOf_accumulate_nil _ hnd, classify_emotion_keys]
  refine ⟨htot, ?_⟩
  show keysOf (final_percentages
    ((segs.foldl (analyze_step lang) initState).emotion_totals)) = emotion_labels
  rw [final_percentages_keys, htot]

theorem claim_C10_witness :
    keysOf (([(⟨"x", []⟩ : Seg)].foldl (analyze_step "en")
        initState).emotion_totals) = emotion_labels
      ∧ keysOf ((analyze_call "en" [(⟨"x", []⟩ : Seg)]).2.1) = emotion_labels :=
  claim_C10 "en" [⟨"x", []⟩] (by simp)

theorem roundHalfEven_eq_of (q : ℚ) (n : ℤ) (h1 : (n : ℚ) ≤ q)
    (h2 : q - n < 1 / 2) : roundHalfEven q = n := by
  have hfl : ⌊q⌋ = n := by
    rw [Int.floor_eq_iff]
    constructor
    · exact h1
    · linarith
  unfold roundHalfEven
  dsimp only
  rw [hfl, if_pos (by linarith)]

theorem round2_eq_of (q : ℚ) (n : ℤ) (h1 : (n : ℚ) ≤ q * 100)
    (h2 : q * 100 - n < 1 / 2) : round2 q = (n : ℚ) / 100 := by
  unfold round2
  rw [roundHalfEven_eq_of (q * 100) n h1 h2]

/-- C1 counterexample: on a zero-segment input, the `final_percentages`
dict returned by `analyze_call` is EMPTY — it does not contain the
canonical key `happy` (nor any other key), because `emotion_totals` is an
empty `defaultdict` when no segment was processed, contradicting the
claim that all 9 canonical keys are present with value 0.0. -/
theorem claim_C1_counterexample :
    keysOf (analyze_call "en" []).2.1 = ([] : List String)
      ∧ "happy" ∉ keysOf (analyze_call "en" []).2.1 := by
  refine ⟨rfl, ?_⟩
  show "happy" ∉ ([] : List String)
  simp

/-- C1 (amended): for a zero-segment input, `analyze_call` returns a
well-formed degenerate result with no division-by-zero: the emotion
history is the empty list, the transcript string is empty, and the
`final_percentages` mapping is the EMPTY dict (so every key it contains —
vacuously — is 0.0; the 9 canonical keys are absent). -/
theorem claim_C1 (lang : String) :
    analyze_call lang [] = ([], ([] : Dict), "") := rfl

/-- C2 (amended): whenever the grand total of a 9-canonical-key totals
dict is strictly positive, every canonical key's final percentage equals
`round(100 * totals[key] / total, 2)`, and the sum of the 9 rounded
percentages lies within 0.045 of 100 (the bound 0.02 claimed by the spec
is too tight; 9 independently rounded values can deviate by up to
9 × 0.005 = 0.045). -/
theorem claim_C2 (totals : Dict) (hk : keysOf totals = emotion_labels)
    (h : 0 < sumValues totals) :
    (∀ k ∈ keysOf totals,
        glookup (final_percentages totals) k
          = round2 (100 * glookup totals k / sumValues totals))
      ∧ |sumValues (final_percentages totals) - 100| ≤ 9 / 200 := by
  constructor
  · intro k hkmem
    rw [final_percentages_pos totals h,
      glookup_map_value totals (fun v => round2 (v / sumValues totals * 100)) k
        hkmem]
    congr 1
    ring
  · have hb := sumValues_final_percentages_bound totals h
    have h9 : totals.length = 9 := by
      have hkl := keysOf_length totals
      rw [hk] at hkl
      simpa [emotion_labels] using hkl.symm
    rw [h9] at hb
    norm_num at hb
    exact hb

theorem claim_C2_witness :
    keysOf [("happy", (1 : ℚ)), ("angry", 1), ("frustrated", 1),
        ("confused", 1), ("sad", 1), ("surprised", 1), ("neutral", 1),
        ("hopeful", 1), ("bored", 1)] = emotion_labels
      ∧ 0 < sumValues [("happy", (1 : ℚ)), ("angry", 1), ("frustrated", 1),
          ("confused", 1), ("sad", 1), ("surprised", 1), ("neutral", 1),
          ("hopeful", 1), ("bored", 1)]
      ∧ ((∀ k ∈ keysOf [("happy", (1 : ℚ)), ("angry", 1), ("frustrated", 1),
            ("confused", 1), ("sad", 1), ("surprised", 1), ("neutral", 1),
            ("hopeful", 1), ("bored", 1)],
          glookup (final_percentages [("happy", (1 : ℚ)), ("angry", 1),
            ("frustrated", 1), ("confused", 1), ("sad", 1), ("surprised", 1),
            ("neutral", 1), ("hopeful", 1), ("bored", 1)]) k
            = round2 (100 * glookup [("happy", (1 : ℚ)), ("angry", 1),
                ("frustrated", 1), ("confused", 1), ("sad", 1),
                ("surprised", 1), ("neutral", 1), ("hopeful", 1),
                ("bored", 1)] k
                / sumValues [("happy", (1 : ℚ)), ("angry", 1),
                  ("frustrated", 1), ("confused", 1), ("sad", 1),
                  ("surprised", 1), ("neutral", 1), ("hopeful", 1),
                  ("bored", 1)]))
        ∧ |sumValues (final_percentages [("happy", (1 : ℚ)), ("angry", 1),
            ("frustrated", 1), ("confused", 1), ("sad", 1), ("surprised", 1),
            ("neutral", 1), ("hopeful", 1), ("bored", 1)]) - 100| ≤ 9 / 200) :=
  ⟨rfl, by norm_num [sumValues], claim_C2 _ rfl (by norm_num [sumValues])⟩

/-- C2 counterexample: a valid 9-canonical-key totals dict with grand
total 300 whose rounded final percentages sum to 99.97 — the deviation
from 100 is 0.03, strictly more than the 0.02 epsilon asserted by the
claim. -/
theorem claim_C2_counterexample :
    keysOf [("happy", (29992 : ℚ)/100), ("angry", 1/100), ("frustrated", 1/100),
        ("confused", 1/100), ("sad", 1/100), ("surprised", 1/100),
        ("neutral", 1/100), ("hopeful", 1/100), ("bored", 1/100)]
      = emotion_labels
      ∧ 0 < sumValues [("happy", (29992 : ℚ)/100), ("angry", 1/100),
          ("frustrated", 1/100), ("confused", 1/100), ("sad", 1/100),
          ("surprised", 1/100), ("neutral", 1/100), ("hopeful", 1/100),
          ("bored", 1/100)]
      ∧ sumValues (final_percentages [("happy", (29992 : ℚ)/100),
          ("angry", 1/100), ("frustrated", 1/100), ("confused", 1/100),
          ("sad", 1/100), ("surprised", 1/100), ("neutral", 1/100),
          ("hopeful", 1/100), ("bored", 1/100)]) = 9997/100
      ∧ ¬ (|sumValues (final_percentages [("happy", (29992 : ℚ)/100),
          ("angry", 1/100), ("frustrated", 1/100), ("confused", 1/100),
          ("sad", 1/100), ("surprised", 1/100), ("neutral", 1/100),
          ("hopeful", 1/100), ("bored", 1/100)]) - 100| ≤ 2/100) := by
  have h300 : sumValues [("happy", (29992 : ℚ)/100), ("angry", 1/100),
      ("frustrated", 1/100), ("confused", 1/100), ("sad", 1/100),
      ("surprised", 1/100), ("neutral", 1/100), ("hopeful", 1/100),
      ("bored", 1/100)] = 300 := by
    norm_num [sumValues]
  have hsum : sumValues (final_percentages [("happy", (29992 : ℚ)/100),
      ("angry", 1/100), ("frustrated", 1/100), ("confused", 1/100),
      ("sad", 1/100), ("surprised", 1/100), ("neutral", 1/100),
      ("hopeful", 1/100), ("bored", 1/100)]) = 9997/100 := by
    rw [final_percentages_pos _ (by rw [h300]; norm_num)]
    simp only [h300, List.map_cons, List.map_nil]
    have e1 : round2 ((29992 : ℚ)/100 / 300 * 100) = 9997/100 := by
      have h := round2_eq_of ((29992 : ℚ)/100 / 300 * 100) 9997
        (by norm_num) (by norm_num)
      rw [h]
      norm_num
    have e2 : round2 ((1 : ℚ)/100 / 300 * 100) = 0 := by
      have h := round2_eq_of ((1 : ℚ)/100 / 300 * 100) 0
        (by norm_num) (by norm_num)
      rw [h]
      norm_num
    rw [e1, e2]
    norm_num [sumValues]
  refine ⟨rfl, by rw [h300]; norm_num, hsum, ?_⟩
  rw [hsum, abs_of_nonpos (by norm_num)]
  norm_num

end EmotionAgent

namespace BatchApp

/-- The file-cap step of `process_batch` (app.py lines 131-132):
`files_to_process = audio_files[:10] if len(audio_files) > 10 else
audio_files`. -/
def files_to_process (audio_files : List String) : List String :=
  if audio_files.length > 10 then audio_files.take 10 else audio_files

/-- The completion notification of `process_batch` (app.py lines
156-158): the base success message, extended — when more than 10 files
were uploaded — with how many files were skipped. -/
def batch_notification (audio_files : List String) : String :=
  let processed := files_to_process audio_files
  let base := "✅ Successfully processed " ++ toString processed.length
    ++ " file(s)!"
  if audio_files.length > 10 then
    base ++ " (Limited to first 10 files, "
      ++ toString (audio_files.length - 10) ++ " files skipped)"
  else base

/-- C9 counterexample: with 11 uploaded files the returned notification
explicitly reports "1 files skipped" and differs from the notification
for a 10-file upload — the excess files are NOT dropped without
indication to the user. -/
theorem claim_C9_counterexample :
    batch_notification ["f01", "f02", "f03", "f04", "f05", "f06", "f07",
        "f08", "f09", "f10", "f11"]
      = "✅ Successfully processed 10 file(s)! (Limited to first 10 files, 1 files skipped)"
      ∧ batch_notification ["f01", "f02", "f03", "f04", "f05", "f06", "f07",
          "f08", "f09", "f10", "f11"]
        ≠ batch_notification ["f01", "f02", "f03", "f04", "f05", "f06", "f07",
            "f08", "f09", "f10"] := by
  constructor <;> decide

/-- C9 (amended): `process_batch` analyzes exactly the first
`min(10, length)` uploaded files in order; when more than 10 files are
uploaded the excess is dropped, and the notification string then reports
the number of skipped files (the drop is capped but not silent). -/
theorem claim_C9 (audio_files : List String) :
    files_to_process audio_files
        = audio_files.take (min 10 audio_files.length)
      ∧ (files_to_process audio_files).length = min 10 audio_files.length
      ∧ (10 < audio_files.length →
          batch_notification audio_files
            = "✅ Successfully processed "
                ++ toString (files_to_process audio_files).length
                ++ " file(s)!"
                ++ " (Limited to first 10 files, "
                ++ toString (audio_files.length - 10)
                ++ " files skipped)") := by
  have h1 : files_to_process audio_files
      = audio_files.take (min 10 audio_files.length) := by
    unfold files_to_process
    split_ifs with h
    · rw [min_eq_left (by omega)]
    · rw [min_eq_right (by omega), List.take_length]
  refine ⟨h1, ?_, ?_⟩
  · rw [h1, List.length_take]
    omega
  · intro h
    unfold batch_notification
    dsimp only
    rw [if_pos h]

theorem claim_C9_witness :
    batch_notification ["g01", "g02", "g03", "g04", "g05", "g06", "g07",
        "g08", "g09", "g10", "g11"]
      = "✅ Successfully processed 10 file(s)! (Limited to first 10 files, 1 files skipped)" := by
  have h := (claim_C9 ["g01", "g02", "g03", "g04", "g05", "g06", "g07",
    "g08", "g09", "g10", "g11"]).2.2 (by decide)
  exact h.trans (by decide)

end BatchApp
